import Mathlib

/-!
# Shallow embedding of `naming_lib` (identifier naming-convention library)

Source files embedded here:
* `src/detector.rs` — six anchored regex grammar predicates and the
  precedence classifier `which_case`.
* `src/naming_case.rs` — the `NamingCase` tagged union, its `Display`
  implementation, word extraction, the five `to_*` conversions and
  `from_hungarian_notation` (named `from_hungarian` here).

Strings are embedded as Lean `String` (a wrapper around `List Char`); the
regexes of the source are deterministic (every quantified character class is
disjoint from the class that can follow it), so each one is embedded as a
structurally recursive matcher over `List Char` whose greedy runs coincide
with the regex semantics.
-/

/-- ASCII `[a-z]` character class of the source regexes. -/
def isAsciiLower (c : Char) : Bool := decide (97 ≤ c.toNat ∧ c.toNat ≤ 122)

/-- ASCII `[A-Z]` character class of the source regexes. -/
def isAsciiUpper (c : Char) : Bool := decide (65 ≤ c.toNat ∧ c.toNat ≤ 90)

/-- ASCII `\d` character class of the source regexes. -/
def isAsciiDigit (c : Char) : Bool := decide (48 ≤ c.toNat ∧ c.toNat ≤ 57)

/-- A character is alphanumeric ASCII (letter or digit). -/
def isAsciiAlpha (c : Char) : Bool := isAsciiLower c || isAsciiUpper c

/-- Rust `char::to_ascii_uppercase`: maps `a..z` to `A..Z`, fixes all else. -/
def toAsciiUpper (c : Char) : Char :=
  if isAsciiLower c then Char.ofNat (c.toNat - 32) else c

/-- Rust `char::to_ascii_lowercase`: maps `A..Z` to `a..z`, fixes all else. -/
def toAsciiLower (c : Char) : Char :=
  if isAsciiUpper c then Char.ofNat (c.toNat + 32) else c

/-- Bound `(l.dropWhile p).length ≤ l.length`, needed for termination of the
group matchers below. -/
theorem dropWhile_length_le (p : Char → Bool) (l : List Char) :
    (l.dropWhile p).length ≤ l.length := by
  induction l with
  | nil => simp
  | cons c rest ih =>
    by_cases h : p c = true
    · simp only [List.dropWhile_cons, h, if_true]
      exact Nat.le_succ_of_le ih
    · simp [List.dropWhile_cons, h]

/-- Anchored matcher for `[a-z]+\d*` (the "word" of snake/kebab grammars and
of the leading camel run). -/
def lowerNumWord (l : List Char) : Bool :=
  !(l.takeWhile isAsciiLower).isEmpty && (l.dropWhile isAsciiLower).all isAsciiDigit

/-- Anchored matcher for `[A-Z]+\d*` (the "word" of the screaming-snake
grammar). -/
def upperNumWord (l : List Char) : Bool :=
  !(l.takeWhile isAsciiUpper).isEmpty && (l.dropWhile isAsciiUpper).all isAsciiDigit

/-- Fuelled matcher for `([A-Z][a-z]*\d*)*`: consumes one group per step.
The fuel only bounds the recursion depth (one group consumes at least one
character, so any fuel of at least `l.length` is enough); it is structural
so that the kernel can evaluate it. -/
def pascalGroupsFuel : Nat → List Char → Bool
  | _, [] => true
  | 0, _ :: _ => false
  | fuel + 1, c :: rest =>
    isAsciiUpper c &&
      pascalGroupsFuel fuel ((rest.dropWhile isAsciiLower).dropWhile isAsciiDigit)

/-- Anchored matcher for `([A-Z][a-z]*\d*)*`, the tail of the camel grammar
and (combined with nonemptiness) the whole pascal grammar. -/
def pascalGroups (l : List Char) : Bool := pascalGroupsFuel l.length l

/-- The fuel of `pascalGroupsFuel` is irrelevant as soon as it dominates the
length of the list. -/
theorem pascalGroupsFuel_irrel :
    ∀ f g : Nat, ∀ l : List Char, l.length ≤ f → l.length ≤ g →
      pascalGroupsFuel f l = pascalGroupsFuel g l := by
  intro f
  induction f with
  | zero =>
    intro g l hf _
    cases l with
    | nil => cases g <;> rfl
    | cons c rest => simp at hf
  | succ f ih =>
    intro g l hf hg
    cases l with
    | nil => cases g <;> rfl
    | cons c rest =>
      cases g with
      | zero => simp at hg
      | succ g =>
        simp only [pascalGroupsFuel]
        have h1 := dropWhile_length_le isAsciiLower rest
        have h2 := dropWhile_length_le isAsciiDigit (rest.dropWhile isAsciiLower)
        simp only [List.length_cons] at hf hg
        rw [ih g ((rest.dropWhile isAsciiLower).dropWhile isAsciiDigit)
          (by omega) (by omega)]

/-- Unfolding `pascalGroups` one group at a time. -/
theorem pascalGroups_cons (c : Char) (rest : List Char) :
    pascalGroups (c :: rest) =
      (isAsciiUpper c &&
        pascalGroups ((rest.dropWhile isAsciiLower).dropWhile isAsciiDigit)) := by
  have h1 := dropWhile_length_le isAsciiLower rest
  have h2 := dropWhile_length_le isAsciiDigit (rest.dropWhile isAsciiLower)
  simp only [pascalGroups, List.length_cons, pascalGroupsFuel]
  rw [pascalGroupsFuel_irrel rest.length
    ((rest.dropWhile isAsciiLower).dropWhile isAsciiDigit).length
    ((rest.dropWhile isAsciiLower).dropWhile isAsciiDigit) (by omega) (by omega)]

/-- Embeds `detector::is_single_word`: anchored match of
`^(?:[a-z]+|[A-Z]+|[A-Z][a-z]+)\d*$` (distributing `\d*` over the
alternation). -/
def is_single_word (word : String) : Bool :=
  lowerNumWord word.data || upperNumWord word.data ||
    (match word.data with
     | [] => false
     | c :: rest => isAsciiUpper c && lowerNumWord rest)

/-- Embeds `detector::is_screaming_snake`: anchored match of
`^[A-Z]+\d*(_[A-Z]+\d*)*$`; equivalently (the word class cannot contain
`_`), every chunk of the `_`-split matches `[A-Z]+\d*`. `List.splitOn`
has exactly the semantics of Rust `str::split` (keeps empty chunks,
`"" ↦ [""]`). -/
def is_screaming_snake (identifier : String) : Bool :=
  (identifier.data.splitOn '_').all upperNumWord

/-- Embeds `detector::is_snake`: anchored match of `^[a-z]+\d*(_[a-z]+\d*)*$`. -/
def is_snake (identifier : String) : Bool :=
  (identifier.data.splitOn '_').all lowerNumWord

/-- Embeds `detector::is_kebab`: anchored match of `^[a-z]+\d*(-[a-z]+\d*)*$`. -/
def is_kebab (identifier : String) : Bool :=
  (identifier.data.splitOn '-').all lowerNumWord

/-- Embeds `detector::is_camel`: anchored match of
`^[a-z]+\d*([A-Z][a-z]*\d*)*$`. -/
def is_camel (identifier : String) : Bool :=
  !(identifier.data.takeWhile isAsciiLower).isEmpty &&
    pascalGroups
      ((identifier.data.dropWhile isAsciiLower).dropWhile isAsciiDigit)

/-- Embeds `detector::is_pascal`: anchored match of `^([A-Z][a-z]*\d*)+$`. -/
def is_pascal (identifier : String) : Bool :=
  !identifier.data.isEmpty && pascalGroups identifier.data

/-- The `NamingCase` enum of `src/naming_case.rs`: one tag per recognized
convention plus `Invalid`, each carrying the original string. -/
inductive NamingCase where
  | SingleWord (s : String)
  | ScreamingSnake (s : String)
  | Snake (s : String)
  | Kebab (s : String)
  | Camel (s : String)
  | Pascal (s : String)
  | Invalid (s : String)
deriving DecidableEq, Repr

/-- Embeds `detector::which_case`: the fixed-precedence if/else chain returning the
first grammar that matches, falling back to `Invalid`. -/
def which_case (identifier : String) : NamingCase :=
  if is_single_word identifier then NamingCase.SingleWord identifier
  else if is_screaming_snake identifier then NamingCase.ScreamingSnake identifier
  else if is_snake identifier then NamingCase.Snake identifier
  else if is_kebab identifier then NamingCase.Kebab identifier
  else if is_camel identifier then NamingCase.Camel identifier
  else if is_pascal identifier then NamingCase.Pascal identifier
  else NamingCase.Invalid identifier

/-- Embeds `impl Display for NamingCase`: every arm writes the wrapped string
unchanged. -/
def toDisplayString : NamingCase → String
  | NamingCase.SingleWord s => s
  | NamingCase.ScreamingSnake s => s
  | NamingCase.Snake s => s
  | NamingCase.Kebab s => s
  | NamingCase.Camel s => s
  | NamingCase.Pascal s => s
  | NamingCase.Invalid s => s

/-- Fuelled scan behind `extract_words_from_pascal`: embeds
`FIRST_UPPER_CASE_REGEX.find_iter` with pattern `[A-Z][a-z]*\d*` — scan left
to right, at each uppercase letter take the greedy match
(the letter, then the maximal lowercase run, then the maximal digit run) and
continue after it, skipping characters at which no match starts. -/
def extractPascalFuel : Nat → List Char → List (List Char)
  | _, [] => []
  | 0, _ :: _ => []
  | fuel + 1, c :: rest =>
    if isAsciiUpper c then
      (c :: (rest.takeWhile isAsciiLower ++
          (rest.dropWhile isAsciiLower).takeWhile isAsciiDigit)) ::
        extractPascalFuel fuel ((rest.dropWhile isAsciiLower).dropWhile isAsciiDigit)
    else extractPascalFuel fuel rest

/-- Embeds `naming_case::extract_words_from_pascal`: all (non-overlapping, greedy,
leftmost) matches of `[A-Z][a-z]*\d*` in `s`, in order. -/
def extract_words_from_pascal (s : List Char) : List (List Char) :=
  extractPascalFuel s.length s

/-- The fuel of `extractPascalFuel` is irrelevant once it dominates the
length of the list. -/
theorem extractPascalFuel_irrel :
    ∀ f g : Nat, ∀ l : List Char, l.length ≤ f → l.length ≤ g →
      extractPascalFuel f l = extractPascalFuel g l := by
  intro f
  induction f with
  | zero =>
    intro g l hf _
    cases l with
    | nil => cases g <;> rfl
    | cons c rest => simp at hf
  | succ f ih =>
    intro g l hf hg
    cases l with
    | nil => cases g <;> rfl
    | cons c rest =>
      cases g with
      | zero => simp at hg
      | succ g =>
        have h1 := dropWhile_length_le isAsciiLower rest
        have h2 := dropWhile_length_le isAsciiDigit (rest.dropWhile isAsciiLower)
        simp only [List.length_cons] at hf hg
        simp only [extractPascalFuel]
        rw [ih g ((rest.dropWhile isAsciiLower).dropWhile isAsciiDigit)
          (by omega) (by omega), ih g rest (by omega) (by omega)]

/-- Unfolding `extract_words_from_pascal` one character at a time. -/
theorem extract_words_from_pascal_cons (c : Char) (rest : List Char) :
    extract_words_from_pascal (c :: rest) =
      if isAsciiUpper c then
        (c :: (rest.takeWhile isAsciiLower ++
            (rest.dropWhile isAsciiLower).takeWhile isAsciiDigit)) ::
          extract_words_from_pascal
            ((rest.dropWhile isAsciiLower).dropWhile isAsciiDigit)
      else extract_words_from_pascal rest := by
  have h1 := dropWhile_length_le isAsciiLower rest
  have h2 := dropWhile_length_le isAsciiDigit (rest.dropWhile isAsciiLower)
  simp only [extract_words_from_pascal, List.length_cons, extractPascalFuel]
  rw [extractPascalFuel_irrel rest.length
    ((rest.dropWhile isAsciiLower).dropWhile isAsciiDigit).length
    ((rest.dropWhile isAsciiLower).dropWhile isAsciiDigit) (by omega) (by omega),
    extractPascalFuel_irrel rest.length rest.length rest (by omega) (by omega)]

/-- Embeds `naming_case::extract_words_from`. Words are embedded as `List Char`.
The `Camel` arm embeds `LOWER_CASE_REGEX.captures` (pattern `^[a-z]+\d*`,
greedy: the maximal lowercase run then the maximal digit run from position
0) followed by `strip_prefix(first_word)`; dropping the matched prefix is
written with `dropWhile`. When the wrapped string does not start with a
lowercase letter the Rust `captures(..).unwrap()` panics — classifier-made
values never reach that state (proved below), and this embedding covers the
non-panicking path only. -/
def extract_words_from : NamingCase → Except String (List (List Char))
  | NamingCase.SingleWord ori => Except.ok [ori.data]
  | NamingCase.ScreamingSnake ori => Except.ok (ori.data.splitOn '_')
  | NamingCase.Snake ori => Except.ok (ori.data.splitOn '_')
  | NamingCase.Kebab ori => Except.ok (ori.data.splitOn '-')
  | NamingCase.Camel ori =>
    Except.ok
      (((ori.data.takeWhile isAsciiLower ++
          (ori.data.dropWhile isAsciiLower).takeWhile isAsciiDigit).map
            toAsciiLower) ::
        extract_words_from_pascal
          ((ori.data.dropWhile isAsciiLower).dropWhile isAsciiDigit))
  | NamingCase.Pascal ori => Except.ok (extract_words_from_pascal ori.data)
  | NamingCase.Invalid _ =>
    -- The Rust literal is the same sentence with a contraction; only the
    -- error/ok distinction is ever observed.
    Except.error "Cannot extract words from this type."

/-- Embeds `naming_case::to_first_uppercase`: `split_at(1)`, uppercase the head,
lowercase the tail. The Rust code panics on the empty string
(`split_at(1)` out of bounds); classifier-extracted words are never empty
(proved below), so the `[]` arm is the unreachable placeholder. -/
def to_first_uppercase : List Char → List Char
  | [] => []
  | c :: rest => toAsciiUpper c :: rest.map toAsciiLower

/-- Embeds `naming_case::compose_words_to_pascal`: capitalize every word and
concatenate (`join("")`). -/
def compose_words_to_pascal (words : List (List Char)) : List Char :=
  (words.map to_first_uppercase).flatten

/-- Embeds `NamingCase::to_screaming_snake`: uppercase every word, join with
`"_"`. -/
def to_screaming_snake (case : NamingCase) : Except String String :=
  match extract_words_from case with
  | Except.error e => Except.error e
  | Except.ok words =>
    Except.ok (String.mk (List.intercalate ['_']
      (words.map (fun word => word.map toAsciiUpper))))

/-- Embeds `NamingCase::to_snake`: lowercase every word, join with `"_"`. -/
def to_snake (case : NamingCase) : Except String String :=
  match extract_words_from case with
  | Except.error e => Except.error e
  | Except.ok words =>
    Except.ok (String.mk (List.intercalate ['_']
      (words.map (fun word => word.map toAsciiLower))))

/-- Embeds `NamingCase::to_kebab`: lowercase every word, join with `"-"`. -/
def to_kebab (case : NamingCase) : Except String String :=
  match extract_words_from case with
  | Except.error e => Except.error e
  | Except.ok words =>
    Except.ok (String.mk (List.intercalate ['-']
      (words.map (fun word => word.map toAsciiLower))))

/-- Embeds `NamingCase::to_camel`: lowercase the first word, capitalize and
concatenate the rest. Rust takes the first word with
`iter.next().unwrap()`, which panics on an empty word list; extraction
never returns one (proved below), so the `[]` arm is the unreachable
placeholder. -/
def to_camel (case : NamingCase) : Except String String :=
  match extract_words_from case with
  | Except.error e => Except.error e
  | Except.ok [] => Except.ok ""
  | Except.ok (first_word :: rest) =>
    Except.ok (String.mk
      (first_word.map toAsciiLower ++ compose_words_to_pascal rest))

/-- Embeds `NamingCase::to_pascal`: capitalize every word and concatenate. -/
def to_pascal (case : NamingCase) : Except String String :=
  match extract_words_from case with
  | Except.error e => Except.error e
  | Except.ok words => Except.ok (String.mk (compose_words_to_pascal words))

/-- Embeds `naming_case::from_hungarian_notation`: classify; anything that is not
tagged `Camel` comes back `Invalid(original)`; otherwise extract the words,
discard the first one and rejoin the remainder with `join("")` as a
`Pascal` value. The extraction `unwrap` cannot fail on a `Camel` value (in
Rust it would panic, never return), so the `error` arm is an unreachable
placeholder. -/
def from_hungarian (identifier : String) : NamingCase :=
  if which_case identifier ≠ NamingCase.Camel identifier then
    NamingCase.Invalid identifier
  else
    match extract_words_from (which_case identifier) with
    | Except.ok words => NamingCase.Pascal (String.mk (words.drop 1).flatten)
    | Except.error _ => NamingCase.Invalid identifier

/-- Whether a value carries the `Invalid` tag. -/
def isInvalidTag : NamingCase → Bool
  | NamingCase.Invalid _ => true
  | _ => false

/-- Whether an `Except` is `ok`. -/
def exceptIsOk : Except String String → Bool
  | Except.ok _ => true
  | Except.error _ => false

/-- Spec-side classifier for the refinement claim C1: an ordered list of
(grammar predicate, tag constructor) pairs evaluated in sequence, returning
the tag of the first grammar that matches and falling back to `Invalid`. -/
def firstMatch : List ((String → Bool) × (String → NamingCase)) → String → NamingCase
  | [], s => NamingCase.Invalid s
  | (p, tag) :: rest, s => if p s then tag s else firstMatch rest s

/-- The fixed precedence order stated by the spec: single-word,
screaming-snake, snake, kebab, camel, pascal. -/
def grammarOrder : List ((String → Bool) × (String → NamingCase)) :=
  [(is_single_word, NamingCase.SingleWord),
   (is_screaming_snake, NamingCase.ScreamingSnake),
   (is_snake, NamingCase.Snake),
   (is_kebab, NamingCase.Kebab),
   (is_camel, NamingCase.Camel),
   (is_pascal, NamingCase.Pascal)]

/-! ## Character-level facts -/

theorem char_toNat_ofNat (n : Nat) (h : n < 55296) : (Char.ofNat n).toNat = n := by
  simp [Char.ofNat, Nat.isValidChar, h, Char.toNat, Char.ofNatAux, UInt32.toNat,
    BitVec.toNat_ofNatLt]

theorem isAsciiLower_eq (c : Char) :
    isAsciiLower c = true ↔ (97 ≤ c.toNat ∧ c.toNat ≤ 122) := by
  simp [isAsciiLower]

theorem isAsciiUpper_eq (c : Char) :
    isAsciiUpper c = true ↔ (65 ≤ c.toNat ∧ c.toNat ≤ 90) := by
  simp [isAsciiUpper]

theorem isAsciiDigit_eq (c : Char) :
    isAsciiDigit c = true ↔ (48 ≤ c.toNat ∧ c.toNat ≤ 57) := by
  simp [isAsciiDigit]

theorem digit_not_lower (c : Char) (h : isAsciiDigit c = true) :
    isAsciiLower c = false := by
  rw [isAsciiDigit_eq] at h
  simp only [isAsciiLower, decide_eq_false_iff_not, not_and]
  omega

theorem digit_not_upper (c : Char) (h : isAsciiDigit c = true) :
    isAsciiUpper c = false := by
  rw [isAsciiDigit_eq] at h
  simp only [isAsciiUpper, decide_eq_false_iff_not, not_and]
  omega

theorem upper_not_lower (c : Char) (h : isAsciiUpper c = true) :
    isAsciiLower c = false := by
  rw [isAsciiUpper_eq] at h
  simp only [isAsciiLower, decide_eq_false_iff_not, not_and]
  omega

theorem upper_not_digit (c : Char) (h : isAsciiUpper c = true) :
    isAsciiDigit c = false := by
  rw [isAsciiUpper_eq] at h
  simp only [isAsciiDigit, decide_eq_false_iff_not, not_and]
  omega

theorem lower_not_upper (c : Char) (h : isAsciiLower c = true) :
    isAsciiUpper c = false := by
  rw [isAsciiLower_eq] at h
  simp only [isAsciiUpper, decide_eq_false_iff_not, not_and]
  omega

theorem lower_not_digit (c : Char) (h : isAsciiLower c = true) :
    isAsciiDigit c = false := by
  rw [isAsciiLower_eq] at h
  simp only [isAsciiDigit, decide_eq_false_iff_not, not_and]
  omega

theorem toAsciiUpper_of_lower (c : Char) (h : isAsciiLower c = true) :
    isAsciiUpper (toAsciiUpper c) = true := by
  have hn := (isAsciiLower_eq c).mp h
  rw [toAsciiUpper, if_pos h, isAsciiUpper_eq, char_toNat_ofNat _ (by omega)]
  omega

theorem toAsciiLower_of_upper (c : Char) (h : isAsciiUpper c = true) :
    isAsciiLower (toAsciiLower c) = true := by
  have hn := (isAsciiUpper_eq c).mp h
  rw [toAsciiLower, if_pos h, isAsciiLower_eq, char_toNat_ofNat _ (by omega)]
  omega

theorem toAsciiUpper_of_not_lower (c : Char) (h : isAsciiLower c = false) :
    toAsciiUpper c = c := by
  simp [toAsciiUpper, h]

theorem toAsciiLower_of_not_upper (c : Char) (h : isAsciiUpper c = false) :
    toAsciiLower c = c := by
  simp [toAsciiLower, h]

theorem toAsciiUpper_digit (c : Char) (h : isAsciiDigit c = true) :
    toAsciiUpper c = c :=
  toAsciiUpper_of_not_lower c (digit_not_lower c h)

theorem toAsciiLower_digit (c : Char) (h : isAsciiDigit c = true) :
    toAsciiLower c = c :=
  toAsciiLower_of_not_upper c (digit_not_upper c h)

theorem toAsciiLower_of_lower (c : Char) (h : isAsciiLower c = true) :
    toAsciiLower c = c :=
  toAsciiLower_of_not_upper c (lower_not_upper c h)

theorem toAsciiLower_alpha (c : Char) (h : isAsciiAlpha c = true) :
    isAsciiLower (toAsciiLower c) = true := by
  rw [isAsciiAlpha, Bool.or_eq_true] at h
  rcases h with h | h
  · rw [toAsciiLower_of_lower c h]; exact h
  · exact toAsciiLower_of_upper c h

theorem toAsciiUpper_alpha (c : Char) (h : isAsciiAlpha c = true) :
    isAsciiUpper (toAsciiUpper c) = true := by
  rw [isAsciiAlpha, Bool.or_eq_true] at h
  rcases h with h | h
  · exact toAsciiUpper_of_lower c h
  · rw [toAsciiUpper_of_not_lower c (upper_not_lower c h)]; exact h

theorem isAsciiDigit_toAsciiUpper (c : Char) :
    isAsciiDigit (toAsciiUpper c) = isAsciiDigit c := by
  by_cases h : isAsciiLower c = true
  · rw [lower_not_digit c h]
    exact upper_not_digit _ (toAsciiUpper_of_lower c h)
  · rw [toAsciiUpper_of_not_lower c (by simpa using h)]

theorem isAsciiDigit_toAsciiLower (c : Char) :
    isAsciiDigit (toAsciiLower c) = isAsciiDigit c := by
  by_cases h : isAsciiUpper c = true
  · rw [upper_not_digit c h]
    exact lower_not_digit _ (toAsciiLower_of_upper c h)
  · rw [toAsciiLower_of_not_upper c (by simpa using h)]

theorem ne_of_toNat_ne {c d : Char} (h : c.toNat ≠ d.toNat) : c ≠ d :=
  fun hc => h (hc ▸ rfl)

theorem lower_ne_underscore (c : Char) (h : isAsciiLower c = true) : c ≠ '_' := by
  rw [isAsciiLower_eq] at h
  exact ne_of_toNat_ne (by intro hn; rw [hn] at h; simp at h)

theorem upper_ne_underscore (c : Char) (h : isAsciiUpper c = true) : c ≠ '_' := by
  rw [isAsciiUpper_eq] at h
  exact ne_of_toNat_ne (by intro hn; rw [hn] at h; simp at h)

theorem digit_ne_underscore (c : Char) (h : isAsciiDigit c = true) : c ≠ '_' := by
  rw [isAsciiDigit_eq] at h
  exact ne_of_toNat_ne (by intro hn; rw [hn] at h; simp at h)

theorem lower_ne_hyphen (c : Char) (h : isAsciiLower c = true) : c ≠ '-' := by
  rw [isAsciiLower_eq] at h
  exact ne_of_toNat_ne (by intro hn; rw [hn] at h; simp at h)

theorem digit_ne_hyphen (c : Char) (h : isAsciiDigit c = true) : c ≠ '-' := by
  rw [isAsciiDigit_eq] at h
  exact ne_of_toNat_ne (by intro hn; rw [hn] at h; simp at h)

/-! ## List helpers -/

theorem takeWhile_append_all (p : Char → Bool) (a d : List Char)
    (h : ∀ c ∈ a, p c = true) :
    (a ++ d).takeWhile p = a ++ d.takeWhile p := by
  induction a with
  | nil => simp
  | cons x xs ih =>
    have hx := h x (List.mem_cons_self x xs)
    simp only [List.cons_append, List.takeWhile_cons, hx, if_true]
    rw [ih (fun c hc => h c (List.mem_cons_of_mem x hc))]

theorem dropWhile_append_all (p : Char → Bool) (a d : List Char)
    (h : ∀ c ∈ a, p c = true) :
    (a ++ d).dropWhile p = d.dropWhile p := by
  induction a with
  | nil => simp
  | cons x xs ih =>
    have hx := h x (List.mem_cons_self x xs)
    simp only [List.cons_append, List.dropWhile_cons, hx, if_true]
    exact ih (fun c hc => h c (List.mem_cons_of_mem x hc))

/-- A list whose head (if any) falsifies `p` is untouched by
`takeWhile p` / `dropWhile p`. -/
theorem takeWhile_head_false (p : Char → Bool) (l : List Char)
    (h : ∀ x xs, l = x :: xs → p x = false) :
    l.takeWhile p = [] ∧ l.dropWhile p = l := by
  cases l with
  | nil => simp
  | cons x xs =>
    have hx := h x xs rfl
    simp [List.takeWhile_cons, List.dropWhile_cons, hx]

theorem all_mem_append_left {p : Char → Bool} {a d : List Char}
    (ha : ∀ c ∈ a, p c = true) (hd : ∀ c ∈ d, p c = true) :
    ∀ c ∈ a ++ d, p c = true := by
  intro c hc
  rcases List.mem_append.mp hc with h | h
  · exact ha c h
  · exact hd c h

/-! ## Word shapes

Decompositions of the word grammars, used to relate extraction output with
the grammar predicates. -/

/-- Shape `[a-z]+\d*`: a nonempty lowercase run followed by a digit run. -/
def IsLowerWord (w : List Char) : Prop :=
  ∃ a d, w = a ++ d ∧ a ≠ [] ∧ (∀ c ∈ a, isAsciiLower c = true) ∧
    (∀ c ∈ d, isAsciiDigit c = true)

/-- Shape `[A-Z]+\d*`: a nonempty uppercase run followed by a digit run. -/
def IsUpperWord (w : List Char) : Prop :=
  ∃ a d, w = a ++ d ∧ a ≠ [] ∧ (∀ c ∈ a, isAsciiUpper c = true) ∧
    (∀ c ∈ d, isAsciiDigit c = true)

/-- Shape `[A-Z][a-z]*\d*`: an uppercase letter, a lowercase run, a digit run. -/
def IsPascalWord (w : List Char) : Prop :=
  ∃ u a d, w = u :: (a ++ d) ∧ isAsciiUpper u = true ∧
    (∀ c ∈ a, isAsciiLower c = true) ∧ (∀ c ∈ d, isAsciiDigit c = true)

/-- Shape `[A-Za-z]+\d*`: a nonempty letter run (any mix of cases) followed by a
digit run — the common shape of every word the extractor produces. -/
def IsAlnumWord (w : List Char) : Prop :=
  ∃ a d, w = a ++ d ∧ a ≠ [] ∧ (∀ c ∈ a, isAsciiAlpha c = true) ∧
    (∀ c ∈ d, isAsciiDigit c = true)

theorem lowerWord_alnum {w : List Char} (h : IsLowerWord w) : IsAlnumWord w := by
  obtain ⟨a, d, rfl, ha, hl, hd⟩ := h
  exact ⟨a, d, rfl, ha, fun c hc => by simp [isAsciiAlpha, hl c hc], hd⟩

theorem upperWord_alnum {w : List Char} (h : IsUpperWord w) : IsAlnumWord w := by
  obtain ⟨a, d, rfl, ha, hu, hd⟩ := h
  exact ⟨a, d, rfl, ha, fun c hc => by simp [isAsciiAlpha, hu c hc], hd⟩

theorem pascalWord_alnum {w : List Char} (h : IsPascalWord w) : IsAlnumWord w := by
  obtain ⟨u, a, d, rfl, hu, hl, hd⟩ := h
  refine ⟨u :: a, d, by simp, by simp, ?_, hd⟩
  intro c hc
  rcases List.mem_cons.mp hc with rfl | hc
  · simp [isAsciiAlpha, hu]
  · simp [isAsciiAlpha, hl c hc]

theorem IsAlnumWord.ne_nil {w : List Char} (h : IsAlnumWord w) : w ≠ [] := by
  obtain ⟨a, d, rfl, ha, _, _⟩ := h
  simp [ha]

/-- Bridge between the executable matcher and the decomposition. -/
theorem lowerNumWord_iff (w : List Char) : lowerNumWord w = true ↔ IsLowerWord w := by
  constructor
  · intro h
    rw [lowerNumWord, Bool.and_eq_true] at h
    obtain ⟨h1, h2⟩ := h
    refine ⟨w.takeWhile isAsciiLower, w.dropWhile isAsciiLower,
      (List.takeWhile_append_dropWhile _ _).symm, ?_, ?_, ?_⟩
    · intro hnil
      rw [hnil] at h1
      simp at h1
    · intro c hc
      exact List.mem_takeWhile_imp hc
    · exact List.all_eq_true.mp h2
  · rintro ⟨a, d, rfl, ha, hl, hd⟩
    have hhead : ∀ x xs, d = x :: xs → isAsciiLower x = false := by
      intro x xs hx
      exact digit_not_lower x (hd x (by rw [hx]; exact List.mem_cons_self x xs))
    obtain ⟨ht, hdw⟩ := takeWhile_head_false isAsciiLower d hhead
    rw [lowerNumWord, Bool.and_eq_true, takeWhile_append_all _ _ _ hl,
      dropWhile_append_all _ _ _ hl, ht, hdw]
    constructor
    · simp [ha]
    · exact List.all_eq_true.mpr hd

theorem upperNumWord_iff (w : List Char) : upperNumWord w = true ↔ IsUpperWord w := by
  constructor
  · intro h
    rw [upperNumWord, Bool.and_eq_true] at h
    obtain ⟨h1, h2⟩ := h
    refine ⟨w.takeWhile isAsciiUpper, w.dropWhile isAsciiUpper,
      (List.takeWhile_append_dropWhile _ _).symm, ?_, ?_, ?_⟩
    · intro hnil
      rw [hnil] at h1
      simp at h1
    · intro c hc
      exact List.mem_takeWhile_imp hc
    · exact List.all_eq_true.mp h2
  · rintro ⟨a, d, rfl, ha, hu, hd⟩
    have hhead : ∀ x xs, d = x :: xs → isAsciiUpper x = false := by
      intro x xs hx
      exact digit_not_upper x (hd x (by rw [hx]; exact List.mem_cons_self x xs))
    obtain ⟨ht, hdw⟩ := takeWhile_head_false isAsciiUpper d hhead
    rw [upperNumWord, Bool.and_eq_true, takeWhile_append_all _ _ _ hu,
      dropWhile_append_all _ _ _ hu, ht, hdw]
    constructor
    · simp [ha]
    · exact List.all_eq_true.mpr hd

/-- The single-word grammar only accepts letter-run-plus-digit-run words. -/
theorem single_word_alnum (s : String) (h : is_single_word s = true) :
    IsAlnumWord s.data := by
  rw [is_single_word, Bool.or_eq_true, Bool.or_eq_true] at h
  rcases h with (h | h) | h
  · exact lowerWord_alnum ((lowerNumWord_iff _).mp h)
  · exact upperWord_alnum ((upperNumWord_iff _).mp h)
  · rcases hsd : s.data with _ | ⟨c, rest⟩
    · rw [hsd] at h
      simp at h
    · rw [hsd] at h
      rw [Bool.and_eq_true] at h
      obtain ⟨hu, hl⟩ := h
      obtain ⟨a, d, hrest, ha, hla, hd⟩ := (lowerNumWord_iff _).mp hl
      refine ⟨c :: a, d, by rw [hrest]; simp, by simp, ?_, hd⟩
      intro x hx
      rcases List.mem_cons.mp hx with rfl | hx
      · simp [isAsciiAlpha, hu]
      · simp [isAsciiAlpha, hla x hx]

/-! ## Pascal-group structure -/

/-- The flattening of a list of pascal words is empty or starts with an
uppercase letter. -/
theorem groups_flatten_head (gs : List (List Char))
    (h : ∀ g ∈ gs, IsPascalWord g) :
    gs.flatten = [] ∨ ∃ y ys, gs.flatten = y :: ys ∧ isAsciiUpper y = true := by
  induction gs with
  | nil => left; rfl
  | cons g gs ih =>
    obtain ⟨u, a, d, rfl, hu, _, _⟩ := h g (List.mem_cons_self g gs)
    right
    exact ⟨u, (a ++ d) ++ gs.flatten, by simp, hu⟩

/-- Splitting a `lowercase-run ++ digit-run ++ group-flattening` shape with
the `takeWhile`/`dropWhile` combinations used by the matchers. -/
theorem lowerDigitGroups_split (a d F : List Char)
    (ha : ∀ c ∈ a, isAsciiLower c = true)
    (hd : ∀ c ∈ d, isAsciiDigit c = true)
    (hF : F = [] ∨ ∃ y ys, F = y :: ys ∧ isAsciiUpper y = true) :
    (a ++ (d ++ F)).takeWhile isAsciiLower = a ∧
    (a ++ (d ++ F)).dropWhile isAsciiLower = d ++ F ∧
    (d ++ F).takeWhile isAsciiDigit = d ∧
    (d ++ F).dropWhile isAsciiDigit = F := by
  have hFlow : ∀ y ys, F = y :: ys → isAsciiLower y = false := by
    intro y ys hy
    rcases hF with rfl | ⟨z, zs, hz, hup⟩
    · cases hy
    · rw [hz] at hy
      injection hy with h1 _
      rw [← h1]
      exact upper_not_lower z hup
  have hFdig : ∀ y ys, F = y :: ys → isAsciiDigit y = false := by
    intro y ys hy
    rcases hF with rfl | ⟨z, zs, hz, hup⟩
    · cases hy
    · rw [hz] at hy
      injection hy with h1 _
      rw [← h1]
      exact upper_not_digit z hup
  obtain ⟨hFtl, hFdl⟩ := takeWhile_head_false isAsciiLower F hFlow
  obtain ⟨hFtd, hFdd⟩ := takeWhile_head_false isAsciiDigit F hFdig
  have hdFlow : (d ++ F).takeWhile isAsciiLower = [] ∧
      (d ++ F).dropWhile isAsciiLower = d ++ F := by
    cases d with
    | nil => exact ⟨by simpa using hFtl, by simpa using hFdl⟩
    | cons x xs =>
      apply takeWhile_head_false
      intro y ys hy
      rw [List.cons_append] at hy
      injection hy with h1 _
      rw [← h1]
      exact digit_not_lower x (hd x (List.mem_cons_self x xs))
  refine ⟨?_, ?_, ?_, ?_⟩
  · rw [takeWhile_append_all _ _ _ ha, hdFlow.1, List.append_nil]
  · rw [dropWhile_append_all _ _ _ ha, hdFlow.2]
  · rw [takeWhile_append_all _ _ _ hd, hFtd, List.append_nil]
  · rw [dropWhile_append_all _ _ _ hd, hFdd]

/-- Soundness: the flattening of pascal words satisfies the group matcher. -/
theorem pascalGroups_of_groups (gs : List (List Char))
    (h : ∀ g ∈ gs, IsPascalWord g) : pascalGroups gs.flatten = true := by
  induction gs with
  | nil => rfl
  | cons g gs ih =>
    obtain ⟨u, a, d, hg, hu, hl, hdd⟩ := h g (List.mem_cons_self g gs)
    have hF := groups_flatten_head gs (fun g hgm => h g (List.mem_cons_of_mem _ hgm))
    obtain ⟨_, hdl, _, hdd2⟩ := lowerDigitGroups_split a d gs.flatten hl hdd hF
    have : (g :: gs).flatten = u :: (a ++ (d ++ gs.flatten)) := by
      rw [List.flatten_cons, hg]
      simp
    rw [this, pascalGroups_cons, hdl, hdd2, hu, Bool.true_and]
    exact ih (fun g hgm => h g (List.mem_cons_of_mem _ hgm))

/-- Completeness: a string accepted by the group matcher is a flattening of
pascal words. -/
theorem pascalGroups_to_groups_aux :
    ∀ n : Nat, ∀ l : List Char, l.length ≤ n → pascalGroups l = true →
      ∃ gs : List (List Char), l = gs.flatten ∧ ∀ g ∈ gs, IsPascalWord g := by
  intro n
  induction n with
  | zero =>
    intro l hl _
    have : l = [] := List.eq_nil_of_length_eq_zero (by omega)
    exact ⟨[], by simp [this], by simp⟩
  | succ n ih =>
    intro l hl h
    cases l with
    | nil => exact ⟨[], by simp, by simp⟩
    | cons c rest =>
      rw [pascalGroups_cons, Bool.and_eq_true] at h
      obtain ⟨hu, hrec⟩ := h
      have h1 := dropWhile_length_le isAsciiLower rest
      have h2 := dropWhile_length_le isAsciiDigit (rest.dropWhile isAsciiLower)
      simp only [List.length_cons] at hl
      obtain ⟨gs, heq, hgs⟩ :=
        ih ((rest.dropWhile isAsciiLower).dropWhile isAsciiDigit) (by omega) hrec
      refine ⟨(c :: (rest.takeWhile isAsciiLower ++
        (rest.dropWhile isAsciiLower).takeWhile isAsciiDigit)) :: gs, ?_, ?_⟩
      · rw [List.flatten_cons, ← heq]
        simp only [List.cons_append, List.append_assoc]
        rw [List.takeWhile_append_dropWhile, List.takeWhile_append_dropWhile]
      · intro g hg
        rcases List.mem_cons.mp hg with rfl | hg
        · exact ⟨c, rest.takeWhile isAsciiLower,
            (rest.dropWhile isAsciiLower).takeWhile isAsciiDigit, rfl, hu,
            fun x hx => List.mem_takeWhile_imp hx,
            fun x hx => List.mem_takeWhile_imp hx⟩
        · exact hgs g hg

theorem pascalGroups_to_groups (l : List Char) (h : pascalGroups l = true) :
    ∃ gs : List (List Char), l = gs.flatten ∧ ∀ g ∈ gs, IsPascalWord g :=
  pascalGroups_to_groups_aux l.length l (Nat.le_refl _) h

/-- The pascal extractor recovers exactly the groups of a flattening of
pascal words. -/
theorem extract_pascal_of_groups (gs : List (List Char))
    (h : ∀ g ∈ gs, IsPascalWord g) :
    extract_words_from_pascal gs.flatten = gs := by
  induction gs with
  | nil => rfl
  | cons g gs ih =>
    obtain ⟨u, a, d, hg, hu, hl, hdd⟩ := h g (List.mem_cons_self g gs)
    have hF := groups_flatten_head gs (fun g hgm => h g (List.mem_cons_of_mem _ hgm))
    obtain ⟨htl, hdl, htd, hdd2⟩ := lowerDigitGroups_split a d gs.flatten hl hdd hF
    have hflat : (g :: gs).flatten = u :: (a ++ (d ++ gs.flatten)) := by
      rw [List.flatten_cons, hg]
      simp
    rw [hflat, extract_words_from_pascal_cons, if_pos hu, htl, hdl, htd, hdd2,
      ih (fun g hgm => h g (List.mem_cons_of_mem _ hgm)), hg]

/-! ## Classifier case analysis -/

/-- First-match semantics of the `which_case` if/else chain, one disjunct
per outcome. -/
theorem which_case_cases (s : String) :
    (is_single_word s = true ∧ which_case s = NamingCase.SingleWord s) ∨
    (is_single_word s = false ∧ is_screaming_snake s = true ∧
      which_case s = NamingCase.ScreamingSnake s) ∨
    (is_single_word s = false ∧ is_screaming_snake s = false ∧
      is_snake s = true ∧ which_case s = NamingCase.Snake s) ∨
    (is_single_word s = false ∧ is_screaming_snake s = false ∧
      is_snake s = false ∧ is_kebab s = true ∧
      which_case s = NamingCase.Kebab s) ∨
    (is_single_word s = false ∧ is_screaming_snake s = false ∧
      is_snake s = false ∧ is_kebab s = false ∧ is_camel s = true ∧
      which_case s = NamingCase.Camel s) ∨
    (is_single_word s = false ∧ is_screaming_snake s = false ∧
      is_snake s = false ∧ is_kebab s = false ∧ is_camel s = false ∧
      is_pascal s = true ∧ which_case s = NamingCase.Pascal s) ∨
    (is_single_word s = false ∧ is_screaming_snake s = false ∧
      is_snake s = false ∧ is_kebab s = false ∧ is_camel s = false ∧
      is_pascal s = false ∧ which_case s = NamingCase.Invalid s) := by
  by_cases h1 : is_single_word s = true
  · exact Or.inl ⟨h1, by simp [which_case, h1]⟩
  · have h1f : is_single_word s = false := by simpa using h1
    by_cases h2 : is_screaming_snake s = true
    · exact Or.inr (Or.inl ⟨h1f, h2, by simp [which_case, h1f, h2]⟩)
    · have h2f : is_screaming_snake s = false := by simpa using h2
      by_cases h3 : is_snake s = true
      · exact Or.inr (Or.inr (Or.inl ⟨h1f, h2f, h3,
          by simp [which_case, h1f, h2f, h3]⟩))
      · have h3f : is_snake s = false := by simpa using h3
        by_cases h4 : is_kebab s = true
        · exact Or.inr (Or.inr (Or.inr (Or.inl ⟨h1f, h2f, h3f, h4,
            by simp [which_case, h1f, h2f, h3f, h4]⟩)))
        · have h4f : is_kebab s = false := by simpa using h4
          by_cases h5 : is_camel s = true
          · exact Or.inr (Or.inr (Or.inr (Or.inr (Or.inl ⟨h1f, h2f, h3f, h4f, h5,
              by simp [which_case, h1f, h2f, h3f, h4f, h5]⟩))))
          · have h5f : is_camel s = false := by simpa using h5
            by_cases h6 : is_pascal s = true
            · exact Or.inr (Or.inr (Or.inr (Or.inr (Or.inr (Or.inl
                ⟨h1f, h2f, h3f, h4f, h5f, h6,
                  by simp [which_case, h1f, h2f, h3f, h4f, h5f, h6]⟩)))))
            · have h6f : is_pascal s = false := by simpa using h6
              exact Or.inr (Or.inr (Or.inr (Or.inr (Or.inr (Or.inr
                ⟨h1f, h2f, h3f, h4f, h5f, h6f,
                  by simp [which_case, h1f, h2f, h3f, h4f, h5f, h6f]⟩)))))

/-! ## Shape of extracted words, per tag -/

theorem splitOn_char_ne_nil (x : Char) (l : List Char) : l.splitOn x ≠ [] := by
  rw [List.splitOn]
  exact List.splitOnP_ne_nil _ _

theorem snake_words (s : String) (h : is_snake s = true) :
    ∀ w ∈ s.data.splitOn '_', IsLowerWord w := by
  rw [is_snake] at h
  intro w hw
  exact (lowerNumWord_iff w).mp (List.all_eq_true.mp h w hw)

theorem kebab_words (s : String) (h : is_kebab s = true) :
    ∀ w ∈ s.data.splitOn '-', IsLowerWord w := by
  rw [is_kebab] at h
  intro w hw
  exact (lowerNumWord_iff w).mp (List.all_eq_true.mp h w hw)

theorem screaming_words (s : String) (h : is_screaming_snake s = true) :
    ∀ w ∈ s.data.splitOn '_', IsUpperWord w := by
  rw [is_screaming_snake] at h
  intro w hw
  exact (upperNumWord_iff w).mp (List.all_eq_true.mp h w hw)

theorem pascal_words (s : String) (h : is_pascal s = true) :
    (∀ w ∈ extract_words_from_pascal s.data, IsPascalWord w) ∧
      extract_words_from_pascal s.data ≠ [] := by
  rw [is_pascal, Bool.and_eq_true] at h
  obtain ⟨hne, hpg⟩ := h
  obtain ⟨gs, heq, hgs⟩ := pascalGroups_to_groups s.data hpg
  rw [heq, extract_pascal_of_groups gs hgs]
  refine ⟨hgs, ?_⟩
  intro hnil
  rw [hnil] at heq
  simp only [List.flatten_nil] at heq
  rw [heq] at hne
  simp at hne

theorem camel_decomp (s : String) (h : is_camel s = true) :
    s.data.takeWhile isAsciiLower ≠ [] ∧
    ∃ gs : List (List Char),
      (s.data.dropWhile isAsciiLower).dropWhile isAsciiDigit = gs.flatten ∧
      ∀ g ∈ gs, IsPascalWord g := by
  rw [is_camel, Bool.and_eq_true] at h
  obtain ⟨hne, hpg⟩ := h
  exact ⟨by simpa using hne, pascalGroups_to_groups _ hpg⟩

/-- The first word extracted from a camel value: the lowercased leading
`[a-z]+\d*` run is itself a lowercase-run-plus-digit-run word. -/
theorem camel_first_word (s : String) (h : is_camel s = true) :
    IsLowerWord ((s.data.takeWhile isAsciiLower ++
      (s.data.dropWhile isAsciiLower).takeWhile isAsciiDigit).map toAsciiLower) := by
  obtain ⟨hne, _⟩ := camel_decomp s h
  have ha : ∀ c ∈ s.data.takeWhile isAsciiLower, isAsciiLower c = true :=
    fun c hc => List.mem_takeWhile_imp hc
  have hd : ∀ c ∈ (s.data.dropWhile isAsciiLower).takeWhile isAsciiDigit,
      isAsciiDigit c = true :=
    fun c hc => List.mem_takeWhile_imp hc
  have hmap : (s.data.takeWhile isAsciiLower ++
      (s.data.dropWhile isAsciiLower).takeWhile isAsciiDigit).map toAsciiLower =
      s.data.takeWhile isAsciiLower ++
        (s.data.dropWhile isAsciiLower).takeWhile isAsciiDigit := by
    rw [List.map_append]
    congr 1
    · conv_rhs => rw [← List.map_id (s.data.takeWhile isAsciiLower)]
      exact List.map_congr_left (fun c hc => toAsciiLower_of_lower c (ha c hc))
    · conv_rhs =>
        rw [← List.map_id ((s.data.dropWhile isAsciiLower).takeWhile isAsciiDigit)]
      exact List.map_congr_left (fun c hc => toAsciiLower_digit c (hd c hc))
  rw [hmap]
  exact ⟨_, _, rfl, hne, ha, hd⟩

theorem camel_words (s : String) (h : is_camel s = true) :
    ∃ first : List Char, ∃ gs : List (List Char),
      extract_words_from (NamingCase.Camel s) = Except.ok (first :: gs) ∧
      IsLowerWord first ∧ ∀ g ∈ gs, IsPascalWord g := by
  obtain ⟨hne, gs, heq, hgs⟩ := camel_decomp s h
  refine ⟨_, _, rfl, camel_first_word s h, ?_⟩
  rw [heq, extract_pascal_of_groups gs hgs]
  exact hgs

/-- Every word list the extractor produces from a classifier-made value is
nonempty and consists of letter-run-plus-digit-run words. -/
theorem words_alnum (s : String) (ws : List (List Char))
    (h : extract_words_from (which_case s) = Except.ok ws) :
    ws ≠ [] ∧ ∀ w ∈ ws, IsAlnumWord w := by
  rcases which_case_cases s with ⟨hp, hw⟩ | ⟨_, hp, hw⟩ | ⟨_, _, hp, hw⟩ |
    ⟨_, _, _, hp, hw⟩ | ⟨_, _, _, _, hp, hw⟩ | ⟨_, _, _, _, _, hp, hw⟩ |
    ⟨_, _, _, _, _, _, hw⟩
  · rw [hw] at h
    simp only [extract_words_from, Except.ok.injEq] at h
    subst h
    refine ⟨by simp, ?_⟩
    intro w hwm
    rw [List.mem_singleton] at hwm
    subst hwm
    exact single_word_alnum s hp
  · rw [hw] at h
    simp only [extract_words_from, Except.ok.injEq] at h
    subst h
    refine ⟨splitOn_char_ne_nil _ _, ?_⟩
    intro w hwm
    exact upperWord_alnum (screaming_words s hp w hwm)
  · rw [hw] at h
    simp only [extract_words_from, Except.ok.injEq] at h
    subst h
    refine ⟨splitOn_char_ne_nil _ _, ?_⟩
    intro w hwm
    exact lowerWord_alnum (snake_words s hp w hwm)
  · rw [hw] at h
    simp only [extract_words_from, Except.ok.injEq] at h
    subst h
    refine ⟨splitOn_char_ne_nil _ _, ?_⟩
    intro w hwm
    exact lowerWord_alnum (kebab_words s hp w hwm)
  · rw [hw] at h
    obtain ⟨first, gs, heq, hfirst, hgs⟩ := camel_words s hp
    rw [heq, Except.ok.injEq] at h
    subst h
    refine ⟨by simp, ?_⟩
    intro w hwm
    rcases List.mem_cons.mp hwm with rfl | hwm
    · exact lowerWord_alnum hfirst
    · exact pascalWord_alnum (hgs w hwm)
  · rw [hw] at h
    simp only [extract_words_from, Except.ok.injEq] at h
    subst h
    obtain ⟨hall, hne⟩ := pascal_words s hp
    exact ⟨hne, fun w hwm => pascalWord_alnum (hall w hwm)⟩
  · rw [hw] at h
    simp [extract_words_from] at h

/-! ## Re-composition: conversion outputs satisfy the target grammars -/

theorem alnum_map_lower {w : List Char} (h : IsAlnumWord w) :
    IsLowerWord (w.map toAsciiLower) := by
  obtain ⟨a, d, rfl, ha, hal, hd⟩ := h
  refine ⟨a.map toAsciiLower, d.map toAsciiLower, List.map_append _ _ _, ?_, ?_, ?_⟩
  · simp [ha]
  · intro c hc
    obtain ⟨x, hx, rfl⟩ := List.mem_map.mp hc
    exact toAsciiLower_alpha x (hal x hx)
  · intro c hc
    obtain ⟨x, hx, rfl⟩ := List.mem_map.mp hc
    rw [isAsciiDigit_toAsciiLower]
    exact hd x hx

theorem alnum_map_upper {w : List Char} (h : IsAlnumWord w) :
    IsUpperWord (w.map toAsciiUpper) := by
  obtain ⟨a, d, rfl, ha, hal, hd⟩ := h
  refine ⟨a.map toAsciiUpper, d.map toAsciiUpper, List.map_append _ _ _, ?_, ?_, ?_⟩
  · simp [ha]
  · intro c hc
    obtain ⟨x, hx, rfl⟩ := List.mem_map.mp hc
    exact toAsciiUpper_alpha x (hal x hx)
  · intro c hc
    obtain ⟨x, hx, rfl⟩ := List.mem_map.mp hc
    rw [isAsciiDigit_toAsciiUpper]
    exact hd x hx

theorem alnum_first_upper {w : List Char} (h : IsAlnumWord w) :
    IsPascalWord (to_first_uppercase w) := by
  obtain ⟨a, d, rfl, ha, hal, hd⟩ := h
  cases a with
  | nil => exact absurd rfl ha
  | cons x a =>
    have hx : isAsciiAlpha x = true := hal x (List.mem_cons_self x a)
    have hx2 : ∀ c ∈ a, isAsciiAlpha c = true :=
      fun c hc => hal c (List.mem_cons_of_mem x hc)
    refine ⟨toAsciiUpper x, a.map toAsciiLower, d.map toAsciiLower, ?_,
      toAsciiUpper_alpha x hx, ?_, ?_⟩
    · show to_first_uppercase (x :: (a ++ d)) = _
      rw [to_first_uppercase, List.map_append]
    · intro c hc
      obtain ⟨y, hy, rfl⟩ := List.mem_map.mp hc
      exact toAsciiLower_alpha y (hx2 y hy)
    · intro c hc
      obtain ⟨y, hy, rfl⟩ := List.mem_map.mp hc
      rw [isAsciiDigit_toAsciiLower]
      exact hd y hy

/-- A letter-digit word cannot contain a character that is neither a letter
nor a digit (such as a separator). -/
theorem alnum_not_mem {w : List Char} (h : IsAlnumWord w) (x : Char)
    (hal : isAsciiAlpha x = false) (hdi : isAsciiDigit x = false) : x ∉ w := by
  obtain ⟨a, d, rfl, _, ha, hd⟩ := h
  intro hm
  rcases List.mem_append.mp hm with hma | hmd
  · rw [ha x hma] at hal
    cases hal
  · rw [hd x hmd] at hdi
    cases hdi

theorem alnum_no_underscore {w : List Char} (h : IsAlnumWord w) : '_' ∉ w :=
  alnum_not_mem h '_' (by decide) (by decide)

theorem alnum_no_hyphen {w : List Char} (h : IsAlnumWord w) : '-' ∉ w :=
  alnum_not_mem h '-' (by decide) (by decide)

/-- Joining lowercased words with `_` produces a snake-case string. -/
theorem snake_of_words (ws : List (List Char)) (hne : ws ≠ [])
    (hall : ∀ w ∈ ws, IsAlnumWord w) :
    is_snake (String.mk (List.intercalate ['_']
      (ws.map (fun w => w.map toAsciiLower)))) = true := by
  have hls : ∀ l ∈ ws.map (fun w => w.map toAsciiLower), IsLowerWord l := by
    intro l hl
    obtain ⟨w, hw, rfl⟩ := List.mem_map.mp hl
    exact alnum_map_lower (hall w hw)
  rw [is_snake]
  show ((List.intercalate ['_'] _).splitOn '_').all lowerNumWord = true
  rw [List.splitOn_intercalate _ '_'
    (fun l hl => alnum_no_underscore (lowerWord_alnum (hls l hl)))
    (by simpa using hne)]
  rw [List.all_eq_true]
  intro w hw
  exact (lowerNumWord_iff w).mpr (hls w hw)

/-- Joining lowercased words with `-` produces a kebab-case string. -/
theorem kebab_of_words (ws : List (List Char)) (hne : ws ≠ [])
    (hall : ∀ w ∈ ws, IsAlnumWord w) :
    is_kebab (String.mk (List.intercalate ['-']
      (ws.map (fun w => w.map toAsciiLower)))) = true := by
  have hls : ∀ l ∈ ws.map (fun w => w.map toAsciiLower), IsLowerWord l := by
    intro l hl
    obtain ⟨w, hw, rfl⟩ := List.mem_map.mp hl
    exact alnum_map_lower (hall w hw)
  rw [is_kebab]
  show ((List.intercalate ['-'] _).splitOn '-').all lowerNumWord = true
  rw [List.splitOn_intercalate _ '-'
    (fun l hl => alnum_no_hyphen (lowerWord_alnum (hls l hl)))
    (by simpa using hne)]
  rw [List.all_eq_true]
  intro w hw
  exact (lowerNumWord_iff w).mpr (hls w hw)

/-- Joining uppercased words with `_` produces a screaming-snake string. -/
theorem screaming_of_words (ws : List (List Char)) (hne : ws ≠ [])
    (hall : ∀ w ∈ ws, IsAlnumWord w) :
    is_screaming_snake (String.mk (List.intercalate ['_']
      (ws.map (fun w => w.map toAsciiUpper)))) = true := by
  have hls : ∀ l ∈ ws.map (fun w => w.map toAsciiUpper), IsUpperWord l := by
    intro l hl
    obtain ⟨w, hw, rfl⟩ := List.mem_map.mp hl
    exact alnum_map_upper (hall w hw)
  rw [is_screaming_snake]
  show ((List.intercalate ['_'] _).splitOn '_').all upperNumWord = true
  rw [List.splitOn_intercalate _ '_'
    (fun l hl => alnum_no_underscore (upperWord_alnum (hls l hl)))
    (by simpa using hne)]
  rw [List.all_eq_true]
  intro w hw
  exact (upperNumWord_iff w).mpr (hls w hw)

/-- Capitalizing every word and concatenating produces a pascal string. -/
theorem pascal_of_words (ws : List (List Char)) (hne : ws ≠ [])
    (hall : ∀ w ∈ ws, IsAlnumWord w) :
    is_pascal (String.mk (compose_words_to_pascal ws)) = true := by
  have hgs : ∀ g ∈ ws.map to_first_uppercase, IsPascalWord g := by
    intro g hg
    obtain ⟨w, hw, rfl⟩ := List.mem_map.mp hg
    exact alnum_first_upper (hall w hw)
  rw [is_pascal, Bool.and_eq_true]
  constructor
  · cases ws with
    | nil => exact absurd rfl hne
    | cons w ws =>
      obtain ⟨u, a, d, hwe, _, _, _⟩ :=
        hgs (to_first_uppercase w) (by simp)
      show (!(compose_words_to_pascal (w :: ws)).isEmpty) = true
      rw [compose_words_to_pascal, List.map_cons, List.flatten_cons, hwe]
      simp
  · show pascalGroups (compose_words_to_pascal ws) = true
    rw [compose_words_to_pascal]
    exact pascalGroups_of_groups _ hgs

/-- Lowercasing the first word, capitalizing and concatenating the rest
produces a camel string. -/
theorem camel_of_words (first : List Char) (ws : List (List Char))
    (hf : IsAlnumWord first) (hall : ∀ w ∈ ws, IsAlnumWord w) :
    is_camel (String.mk
      (first.map toAsciiLower ++ compose_words_to_pascal ws)) = true := by
  obtain ⟨a, d, hfe, ha, hla, hd⟩ := alnum_map_lower hf
  have hgs : ∀ g ∈ ws.map to_first_uppercase, IsPascalWord g := by
    intro g hg
    obtain ⟨w, hw, rfl⟩ := List.mem_map.mp hg
    exact alnum_first_upper (hall w hw)
  have hF := groups_flatten_head _ hgs
  obtain ⟨htl, hdl, htd, hdd⟩ :=
    lowerDigitGroups_split a d (ws.map to_first_uppercase).flatten hla hd hF
  rw [is_camel, Bool.and_eq_true]
  have hdata : (String.mk (first.map toAsciiLower ++ compose_words_to_pascal ws)).data
      = a ++ (d ++ (ws.map to_first_uppercase).flatten) := by
    show first.map toAsciiLower ++ compose_words_to_pascal ws = _
    rw [hfe, compose_words_to_pascal, List.append_assoc]
  rw [hdata]
  constructor
  · rw [htl]
    simp [ha]
  · rw [hdl, hdd]
    exact pascalGroups_of_groups _ hgs

/-- On a classifier-made non-`Invalid` value, extraction succeeds. -/
theorem extract_ok_of_not_invalid (s : String)
    (h : which_case s ≠ NamingCase.Invalid s) :
    ∃ ws, extract_words_from (which_case s) = Except.ok ws := by
  rcases which_case_cases s with ⟨_, hw⟩ | ⟨_, _, hw⟩ | ⟨_, _, _, hw⟩ |
    ⟨_, _, _, _, hw⟩ | ⟨_, _, _, _, _, hw⟩ | ⟨_, _, _, _, _, _, hw⟩ |
    ⟨_, _, _, _, _, _, hw⟩
  · exact ⟨_, by rw [hw]; rfl⟩
  · exact ⟨_, by rw [hw]; rfl⟩
  · exact ⟨_, by rw [hw]; rfl⟩
  · exact ⟨_, by rw [hw]; rfl⟩
  · exact ⟨_, by rw [hw]; rfl⟩
  · exact ⟨_, by rw [hw]; rfl⟩
  · exact absurd hw h

/-! ## Digit preservation -/

theorem filter_digit_map_upper (l : List Char) :
    (l.map toAsciiUpper).filter isAsciiDigit = l.filter isAsciiDigit := by
  induction l with
  | nil => rfl
  | cons c rest ih =>
    simp only [List.map_cons, List.filter_cons, isAsciiDigit_toAsciiUpper]
    cases hc : isAsciiDigit c with
    | true => simp [toAsciiUpper_digit c hc, ih]
    | false => simp [ih]

theorem filter_digit_map_lower (l : List Char) :
    (l.map toAsciiLower).filter isAsciiDigit = l.filter isAsciiDigit := by
  induction l with
  | nil => rfl
  | cons c rest ih =>
    simp only [List.map_cons, List.filter_cons, isAsciiDigit_toAsciiLower]
    cases hc : isAsciiDigit c with
    | true => simp [toAsciiLower_digit c hc, ih]
    | false => simp [ih]

theorem filter_digit_first_upper (w : List Char) :
    (to_first_uppercase w).filter isAsciiDigit = w.filter isAsciiDigit := by
  cases w with
  | nil => rfl
  | cons c rest =>
    simp only [to_first_uppercase, List.filter_cons, isAsciiDigit_toAsciiUpper]
    cases hc : isAsciiDigit c with
    | true => simp [toAsciiUpper_digit c hc, filter_digit_map_lower]
    | false => simp [filter_digit_map_lower]

theorem intercalate_char_cons₂ (sep : Char) (w y : List Char)
    (zs : List (List Char)) :
    List.intercalate [sep] (w :: y :: zs) =
      w ++ sep :: List.intercalate [sep] (y :: zs) := by
  simp [List.intercalate, List.intersperse_cons₂]

theorem filter_digit_intercalate (sep : Char) (hsep : isAsciiDigit sep = false) :
    ∀ ws : List (List Char),
      (List.intercalate [sep] ws).filter isAsciiDigit =
        ws.flatten.filter isAsciiDigit
  | [] => rfl
  | [w] => by simp [List.intercalate]
  | w :: y :: zs => by
    rw [intercalate_char_cons₂, List.filter_append, List.filter_cons, hsep,
      filter_digit_intercalate sep hsep (y :: zs)]
    simp [List.filter_append]

theorem filter_digit_flatten_map (g : List Char → List Char)
    (hg : ∀ w, (g w).filter isAsciiDigit = w.filter isAsciiDigit)
    (ws : List (List Char)) :
    ((ws.map g).flatten).filter isAsciiDigit = ws.flatten.filter isAsciiDigit := by
  induction ws with
  | nil => rfl
  | cons w ws ih =>
    simp only [List.map_cons, List.flatten_cons, List.filter_append, hg, ih]

theorem getD_digit_map (f : Char → Char) (hf : ∀ c, isAsciiDigit c = true → f c = c)
    (w : List Char) (i : Nat) (h : isAsciiDigit (w.getD i ' ') = true) :
    (w.map f).getD i ' ' = w.getD i ' ' := by
  by_cases hi : i < w.length
  · rw [List.getD_eq_getElem w ' ' hi] at h ⊢
    rw [List.getD_eq_getElem _ ' ' (by simpa using hi), List.getElem_map]
    exact hf _ h
  · rw [List.getD_eq_default w ' ' (by omega)] at h
    exact absurd h (by decide)

theorem getD_digit_first_upper (w : List Char) (i : Nat)
    (h : isAsciiDigit (w.getD i ' ') = true) :
    (to_first_uppercase w).getD i ' ' = w.getD i ' ' := by
  cases w with
  | nil => rfl
  | cons c rest =>
    cases i with
    | zero =>
      rw [List.getD_cons_zero] at h
      show (toAsciiUpper c :: rest.map toAsciiLower).getD 0 ' ' = _
      rw [List.getD_cons_zero, List.getD_cons_zero, toAsciiUpper_digit c h]
    | succ j =>
      rw [List.getD_cons_succ] at h
      show (toAsciiUpper c :: rest.map toAsciiLower).getD (j + 1) ' ' = _
      rw [List.getD_cons_succ, List.getD_cons_succ]
      exact getD_digit_map toAsciiLower toAsciiLower_digit rest j h

/-! ## Camel structure (for the classifier-produced `Camel` tag) -/

theorem mem_of_mem_dropWhile (p : Char → Bool) (l : List Char) (x : Char)
    (h : x ∈ l.dropWhile p) : x ∈ l := by
  induction l with
  | nil => simp at h
  | cons c rest ih =>
    rw [List.dropWhile_cons] at h
    by_cases hc : p c = true
    · rw [if_pos hc] at h
      exact List.mem_cons_of_mem c (ih h)
    · rw [if_neg hc] at h
      exact h

/-- A classifier-produced camel string (one that failed the single-word
grammar) has a nonempty pascal tail. -/
theorem camel_structure (s : String) (hsw : is_single_word s = false)
    (hc : is_camel s = true) :
    ∃ gs : List (List Char), gs ≠ [] ∧
      (s.data.dropWhile isAsciiLower).dropWhile isAsciiDigit = gs.flatten ∧
      ∀ g ∈ gs, IsPascalWord g := by
  obtain ⟨ha, gs, heq, hgs⟩ := camel_decomp s hc
  refine ⟨gs, ?_, heq, hgs⟩
  intro hnil
  rw [hnil, List.flatten_nil] at heq
  have hsplit : s.data = s.data.takeWhile isAsciiLower ++
      ((s.data.dropWhile isAsciiLower).takeWhile isAsciiDigit ++
        ((s.data.dropWhile isAsciiLower).dropWhile isAsciiDigit)) := by
    rw [List.takeWhile_append_dropWhile, List.takeWhile_append_dropWhile]
  rw [heq, List.append_nil] at hsplit
  have hlow : IsLowerWord s.data :=
    ⟨s.data.takeWhile isAsciiLower,
      (s.data.dropWhile isAsciiLower).takeWhile isAsciiDigit, hsplit, ha,
      fun c hcm => List.mem_takeWhile_imp hcm,
      fun c hcm => List.mem_takeWhile_imp hcm⟩
  have : is_single_word s = true := by
    rw [is_single_word, Bool.or_eq_true, Bool.or_eq_true]
    exact Or.inl (Or.inl ((lowerNumWord_iff s.data).mpr hlow))
  rw [this] at hsw
  cases hsw

/-- A classifier-produced camel string contains an uppercase letter. -/
theorem camel_has_upper (s : String) (hsw : is_single_word s = false)
    (hc : is_camel s = true) : ∃ c ∈ s.data, isAsciiUpper c = true := by
  obtain ⟨gs, hne, heq, hgs⟩ := camel_structure s hsw hc
  cases gs with
  | nil => exact absurd rfl hne
  | cons g gs =>
    obtain ⟨u, a, d, hg, hu, _, _⟩ := hgs g (List.mem_cons_self g gs)
    refine ⟨u, ?_, hu⟩
    apply mem_of_mem_dropWhile isAsciiLower
    apply mem_of_mem_dropWhile isAsciiDigit
    rw [heq, List.flatten_cons, hg]
    exact List.mem_cons_self u _

/-! ## Helper lemmas for the claims -/

theorem isInvalidTag_false_of_ne (s : String)
    (h : which_case s ≠ NamingCase.Invalid s) :
    isInvalidTag (which_case s) = false := by
  rcases which_case_cases s with ⟨_, hw⟩ | ⟨_, _, hw⟩ | ⟨_, _, _, hw⟩ |
    ⟨_, _, _, _, hw⟩ | ⟨_, _, _, _, _, hw⟩ | ⟨_, _, _, _, _, _, hw⟩ |
    ⟨_, _, _, _, _, _, hw⟩
  · rw [hw]; rfl
  · rw [hw]; rfl
  · rw [hw]; rfl
  · rw [hw]; rfl
  · rw [hw]; rfl
  · rw [hw]; rfl
  · exact absurd hw h

theorem five_ops_ok (c : NamingCase) (ws : List (List Char))
    (hws : extract_words_from c = Except.ok ws) (hne : ws ≠ []) :
    exceptIsOk (to_screaming_snake c) = true ∧
    exceptIsOk (to_snake c) = true ∧
    exceptIsOk (to_kebab c) = true ∧
    exceptIsOk (to_camel c) = true ∧
    exceptIsOk (to_pascal c) = true := by
  cases ws with
  | nil => exact absurd rfl hne
  | cons w rest =>
    refine ⟨?_, ?_, ?_, ?_, ?_⟩ <;>
      simp [to_screaming_snake, to_snake, to_kebab, to_camel, to_pascal, hws,
        exceptIsOk]

/-! ## The claims -/

/-- C1: for every input string, the classifier evaluates the six grammar
predicates in the fixed precedence order single-word, screaming-snake,
snake, kebab, camel, pascal, returning the tag of the first grammar that
matches and falling back to `Invalid` (here: `which_case` coincides with
the ordered-first-match evaluation of `grammarOrder`); in particular
`"FOO"` also satisfies the screaming-snake grammar yet is tagged
`SingleWord`. -/
theorem claim_C1_precedence_first_match (s : String) :
    which_case s = firstMatch grammarOrder s ∧
    is_single_word "FOO" = true ∧
    is_screaming_snake "FOO" = true ∧
    which_case "FOO" = NamingCase.SingleWord "FOO" :=
  ⟨rfl, by decide, by decide, by decide⟩

/-- C2: on every classified value, each of the five conversions returns
`Except.ok` exactly when the tag is not `Invalid` (so it errors if and only
if the tag is `Invalid`). -/
theorem claim_C2_error_iff_invalid (s : String) :
    exceptIsOk (to_screaming_snake (which_case s)) = !isInvalidTag (which_case s) ∧
    exceptIsOk (to_snake (which_case s)) = !isInvalidTag (which_case s) ∧
    exceptIsOk (to_kebab (which_case s)) = !isInvalidTag (which_case s) ∧
    exceptIsOk (to_camel (which_case s)) = !isInvalidTag (which_case s) ∧
    exceptIsOk (to_pascal (which_case s)) = !isInvalidTag (which_case s) := by
  by_cases hI : which_case s = NamingCase.Invalid s
  · rw [hI]
    refine ⟨?_, ?_, ?_, ?_, ?_⟩ <;>
      simp [to_screaming_snake, to_snake, to_kebab, to_camel, to_pascal,
        extract_words_from, exceptIsOk, isInvalidTag]
  · obtain ⟨ws, hws⟩ := extract_ok_of_not_invalid s hI
    obtain ⟨hne, _⟩ := words_alnum s ws hws
    obtain ⟨o1, o2, o3, o4, o5⟩ := five_ops_ok (which_case s) ws hws hne
    rw [o1, o2, o3, o4, o5, isInvalidTag_false_of_ne s hI]
    exact ⟨rfl, rfl, rfl, rfl, rfl⟩

/-- C3: classifying any string and then converting the result back to a
string (the `Display` implementation) returns exactly the original string,
for every resulting tag including `Invalid`. -/
theorem claim_C3_round_trip_display (s : String) :
    toDisplayString (which_case s) = s := by
  simp only [which_case]
  split_ifs <;> rfl

/-- C4: for every string whose classification is not `Invalid`, all five
conversions succeed and each output, when checked against the target
grammar predicate, matches it. -/
theorem claim_C4_conversion_closure (s : String)
    (h : which_case s ≠ NamingCase.Invalid s) :
    (∃ t, to_screaming_snake (which_case s) = Except.ok t ∧
      is_screaming_snake t = true) ∧
    (∃ t, to_snake (which_case s) = Except.ok t ∧ is_snake t = true) ∧
    (∃ t, to_kebab (which_case s) = Except.ok t ∧ is_kebab t = true) ∧
    (∃ t, to_camel (which_case s) = Except.ok t ∧ is_camel t = true) ∧
    (∃ t, to_pascal (which_case s) = Except.ok t ∧ is_pascal t = true) := by
  obtain ⟨ws, hws⟩ := extract_ok_of_not_invalid s h
  obtain ⟨hne, hall⟩ := words_alnum s ws hws
  refine ⟨?_, ?_, ?_, ?_, ?_⟩
  · exact ⟨_, by simp only [to_screaming_snake, hws],
      screaming_of_words ws hne hall⟩
  · exact ⟨_, by simp only [to_snake, hws], snake_of_words ws hne hall⟩
  · exact ⟨_, by simp only [to_kebab, hws], kebab_of_words ws hne hall⟩
  · cases ws with
    | nil => exact absurd rfl hne
    | cons w rest =>
      exact ⟨_, by simp only [to_camel, hws],
        camel_of_words w rest (hall w (List.mem_cons_self w rest))
          (fun x hx => hall x (List.mem_cons_of_mem w hx))⟩
  · exact ⟨_, by simp only [to_pascal, hws], pascal_of_words ws hne hall⟩

/-- Witness for C4 at the snake-case input `"foo_bar"`. -/
theorem claim_C4_witness :
    which_case "foo_bar" ≠ NamingCase.Invalid "foo_bar" ∧
    ((∃ t, to_screaming_snake (which_case "foo_bar") = Except.ok t ∧
      is_screaming_snake t = true) ∧
    (∃ t, to_snake (which_case "foo_bar") = Except.ok t ∧ is_snake t = true) ∧
    (∃ t, to_kebab (which_case "foo_bar") = Except.ok t ∧ is_kebab t = true) ∧
    (∃ t, to_camel (which_case "foo_bar") = Except.ok t ∧ is_camel t = true) ∧
    (∃ t, to_pascal (which_case "foo_bar") = Except.ok t ∧ is_pascal t = true)) :=
  ⟨by decide, claim_C4_conversion_closure "foo_bar" (by decide)⟩

/-- C5: `from_hungarian` returns `Invalid(original)` whenever the input is
not classified exactly `Camel`; otherwise it extracts the camel words,
discards the first word unconditionally and returns `Pascal` of the
remaining words concatenated with no separator and no re-casing; in
particular on `"iPageSize"` and `"NotACamelCase"` as stated. -/
theorem claim_C5_from_hungarian (s : String) :
    (which_case s ≠ NamingCase.Camel s →
      from_hungarian s = NamingCase.Invalid s) ∧
    (∀ ws : List (List Char), which_case s = NamingCase.Camel s →
      extract_words_from (NamingCase.Camel s) = Except.ok ws →
      from_hungarian s = NamingCase.Pascal (String.mk (ws.drop 1).flatten)) ∧
    from_hungarian "iPageSize" = NamingCase.Pascal "PageSize" ∧
    from_hungarian "NotACamelCase" = NamingCase.Invalid "NotACamelCase" := by
  refine ⟨?_, ?_, by decide, by decide⟩
  · intro h
    simp only [from_hungarian]
    rw [if_pos h]
  · intro ws hcam hws
    simp only [from_hungarian]
    rw [if_neg (not_not_intro hcam), hcam, hws]

/-- Witness for C5 at `"iPageSize"` (camel, accepted) and
`"NotACamelCase"` (pascal, rejected). -/
theorem claim_C5_witness :
    from_hungarian "iPageSize" = NamingCase.Pascal
      (String.mk (([['i'], ['P','a','g','e'], ['S','i','z','e']].drop 1).flatten)) ∧
    from_hungarian "NotACamelCase" = NamingCase.Invalid "NotACamelCase" :=
  ⟨(claim_C5_from_hungarian "iPageSize").2.1
      [['i'], ['P','a','g','e'], ['S','i','z','e']] (by decide) rfl,
   (claim_C5_from_hungarian "NotACamelCase").1 (by decide)⟩

/-- C6: whenever the classifier tags a string with a non-`Invalid` tag `X`,
the standalone grammar predicate `is_X` returns true on that string. -/
theorem claim_C6_predicate_consistency (s : String) :
    (which_case s = NamingCase.SingleWord s → is_single_word s = true) ∧
    (which_case s = NamingCase.ScreamingSnake s → is_screaming_snake s = true) ∧
    (which_case s = NamingCase.Snake s → is_snake s = true) ∧
    (which_case s = NamingCase.Kebab s → is_kebab s = true) ∧
    (which_case s = NamingCase.Camel s → is_camel s = true) ∧
    (which_case s = NamingCase.Pascal s → is_pascal s = true) := by
  rcases which_case_cases s with ⟨hp, hw⟩ | ⟨_, hp, hw⟩ | ⟨_, _, hp, hw⟩ |
    ⟨_, _, _, hp, hw⟩ | ⟨_, _, _, _, hp, hw⟩ | ⟨_, _, _, _, _, hp, hw⟩ |
    ⟨_, _, _, _, _, _, hw⟩ <;>
  refine ⟨fun he => ?_, fun he => ?_, fun he => ?_, fun he => ?_, fun he => ?_,
    fun he => ?_⟩ <;>
  rw [hw] at he <;>
  first
    | exact NamingCase.noConfusion he
    | exact hp

/-- Witness for C6 at `"foo_bar"` (snake) and `"fooBar"` (camel). -/
theorem claim_C6_witness :
    is_snake "foo_bar" = true ∧ is_camel "fooBar" = true :=
  ⟨(claim_C6_predicate_consistency "foo_bar").2.2.1 (by decide),
   (claim_C6_predicate_consistency "fooBar").2.2.2.2.1 (by decide)⟩

/-- C7: classification is total, anchored, and routes everything no grammar
matches — empty string, leading/trailing/doubled/mixed separators,
punctuation, non-ASCII — to `Invalid`: if all six predicates reject then
the result is `Invalid`, a non-`Invalid` result means some (anchored,
whole-string) grammar predicate accepted, and the listed literals are all
`Invalid`. -/
theorem claim_C7_invalid_fallback (s : String) :
    (is_single_word s = false → is_screaming_snake s = false →
      is_snake s = false → is_kebab s = false → is_camel s = false →
      is_pascal s = false → which_case s = NamingCase.Invalid s) ∧
    (which_case s ≠ NamingCase.Invalid s →
      is_single_word s = true ∨ is_screaming_snake s = true ∨
      is_snake s = true ∨ is_kebab s = true ∨ is_camel s = true ∨
      is_pascal s = true) ∧
    which_case "" = NamingCase.Invalid "" ∧
    which_case "_foo" = NamingCase.Invalid "_foo" ∧
    which_case "foo_" = NamingCase.Invalid "foo_" ∧
    which_case "foo__bar" = NamingCase.Invalid "foo__bar" ∧
    which_case "foo_bar-baz" = NamingCase.Invalid "foo_bar-baz" ∧
    which_case "foo@bar" = NamingCase.Invalid "foo@bar" ∧
    which_case "非英语" = NamingCase.Invalid "非英语" := by
  refine ⟨?_, ?_, by decide, by decide, by decide, by decide, by decide,
    by decide, by decide⟩
  · intro h1 h2 h3 h4 h5 h6
    simp [which_case, h1, h2, h3, h4, h5, h6]
  · intro h
    rcases which_case_cases s with ⟨hp, _⟩ | ⟨_, hp, _⟩ | ⟨_, _, hp, _⟩ |
      ⟨_, _, _, hp, _⟩ | ⟨_, _, _, _, hp, _⟩ | ⟨_, _, _, _, _, hp, _⟩ |
      ⟨_, _, _, _, _, _, hw⟩
    · exact Or.inl hp
    · exact Or.inr (Or.inl hp)
    · exact Or.inr (Or.inr (Or.inl hp))
    · exact Or.inr (Or.inr (Or.inr (Or.inl hp)))
    · exact Or.inr (Or.inr (Or.inr (Or.inr (Or.inl hp))))
    · exact Or.inr (Or.inr (Or.inr (Or.inr (Or.inr hp))))
    · exact absurd hw h

/-- Witness for C7 at `"@"` (all grammars reject) and `"foo"`
(some grammar accepts). -/
theorem claim_C7_witness :
    which_case "@" = NamingCase.Invalid "@" ∧
    (is_single_word "foo" = true ∨ is_screaming_snake "foo" = true ∨
      is_snake "foo" = true ∨ is_kebab "foo" = true ∨ is_camel "foo" = true ∨
      is_pascal "foo" = true) :=
  ⟨(claim_C7_invalid_fallback "@").1 (by decide) (by decide) (by decide)
      (by decide) (by decide) (by decide),
   (claim_C7_invalid_fallback "foo").2.1 (by decide)⟩

/-- C8: digits embedded in a word are never altered by any conversion: the
case maps fix every digit, the per-word transforms (whole-word uppercasing
and lowercasing, and first-character capitalization) leave each digit at
its position unchanged, and consequently, for every classifier-produced
non-`Invalid` value, the digit sequence of every conversion's output equals
the digit sequence of the extracted input words. -/
theorem claim_C8_digits_unaltered :
    (∀ c : Char, isAsciiDigit c = true → toAsciiUpper c = c ∧ toAsciiLower c = c) ∧
    (∀ w : List Char, ∀ i : Nat, isAsciiDigit (w.getD i ' ') = true →
      (w.map toAsciiUpper).getD i ' ' = w.getD i ' ' ∧
      (w.map toAsciiLower).getD i ' ' = w.getD i ' ' ∧
      (to_first_uppercase w).getD i ' ' = w.getD i ' ') ∧
    (∀ s : String, ∀ ws : List (List Char), ∀ t : String,
      extract_words_from (which_case s) = Except.ok ws →
      (to_screaming_snake (which_case s) = Except.ok t ∨
       to_snake (which_case s) = Except.ok t ∨
       to_kebab (which_case s) = Except.ok t ∨
       to_camel (which_case s) = Except.ok t ∨
       to_pascal (which_case s) = Except.ok t) →
      t.data.filter isAsciiDigit = ws.flatten.filter isAsciiDigit) := by
  refine ⟨?_, ?_, ?_⟩
  · intro c hc
    exact ⟨toAsciiUpper_digit c hc, toAsciiLower_digit c hc⟩
  · intro w i h
    exact ⟨getD_digit_map toAsciiUpper toAsciiUpper_digit w i h,
      getD_digit_map toAsciiLower toAsciiLower_digit w i h,
      getD_digit_first_upper w i h⟩
  · intro s ws t hws hop
    obtain ⟨hne, _⟩ := words_alnum s ws hws
    rcases hop with hop | hop | hop | hop | hop
    · have he : to_screaming_snake (which_case s) = Except.ok (String.mk
        (List.intercalate ['_'] (ws.map (fun w => w.map toAsciiUpper)))) := by
        simp only [to_screaming_snake, hws]
      rw [he, Except.ok.injEq] at hop
      subst hop
      show (List.intercalate ['_']
        (ws.map (fun w => w.map toAsciiUpper))).filter isAsciiDigit = _
      rw [filter_digit_intercalate '_' (by decide),
        filter_digit_flatten_map _ filter_digit_map_upper]
    · have he : to_snake (which_case s) = Except.ok (String.mk
        (List.intercalate ['_'] (ws.map (fun w => w.map toAsciiLower)))) := by
        simp only [to_snake, hws]
      rw [he, Except.ok.injEq] at hop
      subst hop
      show (List.intercalate ['_']
        (ws.map (fun w => w.map toAsciiLower))).filter isAsciiDigit = _
      rw [filter_digit_intercalate '_' (by decide),
        filter_digit_flatten_map _ filter_digit_map_lower]
    · have he : to_kebab (which_case s) = Except.ok (String.mk
        (List.intercalate ['-'] (ws.map (fun w => w.map toAsciiLower)))) := by
        simp only [to_kebab, hws]
      rw [he, Except.ok.injEq] at hop
      subst hop
      show (List.intercalate ['-']
        (ws.map (fun w => w.map toAsciiLower))).filter isAsciiDigit = _
      rw [filter_digit_intercalate '-' (by decide),
        filter_digit_flatten_map _ filter_digit_map_lower]
    · cases ws with
      | nil => exact absurd rfl hne
      | cons w rest =>
        have he : to_camel (which_case s) = Except.ok (String.mk
            (w.map toAsciiLower ++ compose_words_to_pascal rest)) := by
          simp only [to_camel, hws]
        rw [he, Except.ok.injEq] at hop
        subst hop
        show (w.map toAsciiLower ++
          compose_words_to_pascal rest).filter isAsciiDigit = _
        rw [List.filter_append, filter_digit_map_lower, compose_words_to_pascal,
          filter_digit_flatten_map _ filter_digit_first_upper,
          List.flatten_cons, List.filter_append]
    · have he : to_pascal (which_case s) = Except.ok (String.mk
          (compose_words_to_pascal ws)) := by
        simp only [to_pascal, hws]
      rw [he, Except.ok.injEq] at hop
      subst hop
      show (compose_words_to_pascal ws).filter isAsciiDigit = _
      rw [compose_words_to_pascal,
        filter_digit_flatten_map _ filter_digit_first_upper]

/-- Witness for C8: the digit `'5'`, the word `['a','1']` at position 1,
and the camel input `"a1Bc2"` converted to snake case. -/
theorem claim_C8_witness :
    (toAsciiUpper '5' = '5' ∧ toAsciiLower '5' = '5') ∧
    ((['a','1'].map toAsciiUpper).getD 1 ' ' = ['a','1'].getD 1 ' ' ∧
     (['a','1'].map toAsciiLower).getD 1 ' ' = ['a','1'].getD 1 ' ' ∧
     (to_first_uppercase ['a','1']).getD 1 ' ' = ['a','1'].getD 1 ' ') ∧
    ("a1_bc2" : String).data.filter isAsciiDigit =
      ([['a','1'], ['B','c','2']] : List (List Char)).flatten.filter isAsciiDigit :=
  ⟨claim_C8_digits_unaltered.1 '5' (by decide),
   claim_C8_digits_unaltered.2.1 ['a','1'] 1 (by decide),
   claim_C8_digits_unaltered.2.2 "a1Bc2" [['a','1'], ['B','c','2']] "a1_bc2"
     rfl (Or.inr (Or.inl rfl))⟩

/-- C9: on every classifier-produced value the conversions cannot panic:
every extracted word is nonempty and pure ASCII (letters and digits only),
so Rust's `split_at(1)` is in bounds and on a character boundary; the word
list is never empty, so `to_camel`'s first-element `unwrap` is safe; and a
classifier-produced `Camel` string starts with a lowercase run, so the
`Camel`-branch regex capture and prefix strip succeed. -/
theorem claim_C9_no_panics (s : String) (ws : List (List Char))
    (h : extract_words_from (which_case s) = Except.ok ws) :
    ws ≠ [] ∧
    (∀ w ∈ ws, w ≠ [] ∧
      w.all (fun c => isAsciiAlpha c || isAsciiDigit c) = true) ∧
    (which_case s = NamingCase.Camel s → s.data.takeWhile isAsciiLower ≠ []) := by
  obtain ⟨hne, hall⟩ := words_alnum s ws h
  refine ⟨hne, ?_, ?_⟩
  · intro w hwm
    obtain ⟨a, d, rfl, ha, hal, hd⟩ := hall w hwm
    refine ⟨by simp [ha], ?_⟩
    rw [List.all_eq_true]
    intro c hc
    rcases List.mem_append.mp hc with hca | hcd
    · rw [Bool.or_eq_true]
      exact Or.inl (hal c hca)
    · rw [Bool.or_eq_true]
      exact Or.inr (hd c hcd)
  · intro hcam
    rcases which_case_cases s with ⟨_, hw⟩ | ⟨_, _, hw⟩ | ⟨_, _, _, hw⟩ |
      ⟨_, _, _, _, hw⟩ | ⟨_, _, _, _, hp, hw⟩ | ⟨_, _, _, _, _, _, hw⟩ |
      ⟨_, _, _, _, _, _, hw⟩ <;> rw [hw] at hcam
    · exact NamingCase.noConfusion hcam
    · exact NamingCase.noConfusion hcam
    · exact NamingCase.noConfusion hcam
    · exact NamingCase.noConfusion hcam
    · exact (camel_decomp s hp).1
    · exact NamingCase.noConfusion hcam
    · exact NamingCase.noConfusion hcam

/-- Witness for C9 at the camel input `"fooBar"`. -/
theorem claim_C9_witness :
    ([['f','o','o'], ['B','a','r']] : List (List Char)) ≠ [] ∧
    (∀ w ∈ ([['f','o','o'], ['B','a','r']] : List (List Char)), w ≠ [] ∧
      w.all (fun c => isAsciiAlpha c || isAsciiDigit c) = true) ∧
    (which_case "fooBar" = NamingCase.Camel "fooBar" →
      ("fooBar" : String).data.takeWhile isAsciiLower ≠ []) :=
  claim_C9_no_panics "fooBar" [['f','o','o'], ['B','a','r']] rfl

/-- C10: the classifier tags a string `Camel` only if it contains an
uppercase letter (a purely lowercase word is caught earlier as
`SingleWord`), so every classifier-produced `Camel` value decomposes into
at least two words, and `from_hungarian` on any accepted input returns a
`Pascal` value with a nonempty payload. -/
theorem claim_C10_camel_two_words (s : String)
    (h : which_case s = NamingCase.Camel s) :
    (∃ c ∈ s.data, isAsciiUpper c = true) ∧
    (∀ ws, extract_words_from (NamingCase.Camel s) = Except.ok ws →
      2 ≤ ws.length) ∧
    (∃ t : String, from_hungarian s = NamingCase.Pascal t ∧ t ≠ "") := by
  have hpreds : is_single_word s = false ∧ is_camel s = true := by
    rcases which_case_cases s with ⟨_, hw⟩ | ⟨_, _, hw⟩ | ⟨_, _, _, hw⟩ |
      ⟨_, _, _, _, hw⟩ | ⟨hsw, _, _, _, hp, hw⟩ | ⟨_, _, _, _, _, _, hw⟩ |
      ⟨_, _, _, _, _, _, hw⟩ <;> rw [hw] at h
    · exact NamingCase.noConfusion h
    · exact NamingCase.noConfusion h
    · exact NamingCase.noConfusion h
    · exact NamingCase.noConfusion h
    · exact ⟨hsw, hp⟩
    · exact NamingCase.noConfusion h
    · exact NamingCase.noConfusion h
  obtain ⟨hsw, hc⟩ := hpreds
  obtain ⟨gs, hgne, heq, hgs⟩ := camel_structure s hsw hc
  have hext : extract_words_from_pascal
      ((s.data.dropWhile isAsciiLower).dropWhile isAsciiDigit) = gs := by
    rw [heq]
    exact extract_pascal_of_groups gs hgs
  refine ⟨camel_has_upper s hsw hc, ?_, ?_⟩
  · intro ws hws
    simp only [extract_words_from, Except.ok.injEq] at hws
    subst hws
    rw [List.length_cons, hext]
    have : 0 < gs.length := List.length_pos.mpr hgne
    omega
  · refine ⟨String.mk gs.flatten, ?_, ?_⟩
    · have hr : which_case s = NamingCase.Camel s := h
      simp only [from_hungarian]
      rw [if_neg (not_not_intro hr), hr]
      show NamingCase.Pascal (String.mk ((List.drop 1 (_ :: extract_words_from_pascal
        ((s.data.dropWhile isAsciiLower).dropWhile isAsciiDigit))).flatten)) = _
      rw [List.drop_one, List.tail_cons, hext]
    · intro hempty
      have hdata : gs.flatten = [] := congrArg String.data hempty
      cases gs with
      | nil => exact absurd rfl hgne
      | cons g gs =>
        obtain ⟨u, a, d, hg, _, _, _⟩ := hgs g (List.mem_cons_self g gs)
        rw [List.flatten_cons, hg] at hdata
        exact List.noConfusion hdata

/-- Witness for C10 at `"fooBar"`. -/
theorem claim_C10_witness :
    (∃ c ∈ ("fooBar" : String).data, isAsciiUpper c = true) ∧
    (∀ ws, extract_words_from (NamingCase.Camel "fooBar") = Except.ok ws →
      2 ≤ ws.length) ∧
    (∃ t : String, from_hungarian "fooBar" = NamingCase.Pascal t ∧ t ≠ "") :=
  claim_C10_camel_two_words "fooBar" (by decide)
